/-
Verification of the cba-chatbot RAG pipeline against its specification.

The development shallowly embeds the relevant Python functions of
  backend/app/main.py, scripts/embed.py, scripts/crawl_site_text.py and
  scripts/download_pdfs.py
as executable Lean definitions.  Strings are modelled as `String` at the
interfaces and `List Char` in the recursive cores (Python `len`, indexing
and slicing count code points, as `List Char` does).  External capabilities
(the sha-256 hash, the embedding model, the language-model call) are taken
as function parameters; the stateful parts (content store, manifest,
conversation map) are threaded explicitly.
-/
import Mathlib

namespace Cba

/-! ## Python string primitives (over `List Char`) -/

/-- Python whitespace for `str.strip()` (the ASCII part, which is all the
sources ever strip). -/
def pySpace (c : Char) : Bool :=
  c = ' ' ∨ c = '\t' ∨ c = '\n' ∨ c = '\r' ∨ c = '\x0b' ∨ c = '\x0c'

/-- `str.strip()` on the left. -/
def stripL (l : List Char) : List Char := l.dropWhile pySpace

/-- `str.strip()` on both sides. -/
def stripLR (l : List Char) : List Char := (stripL (stripL l).reverse).reverse

/-- `str.strip()` at the `String` level. -/
def pyStrip (s : String) : String := String.mk (stripLR s.data)

/-- `str.lower()` (ASCII case fold, all phrases compared are ASCII). -/
def lowerL (l : List Char) : List Char := l.map Char.toLower

/-- Does `pat` occur at the start of `l`?  (Python `str.startswith`.) -/
def hasPre : List Char → List Char → Bool
  | [], _ => true
  | _ :: _, [] => false
  | a :: as, b :: bs => a = b && hasPre as bs

/-- Does `pat` occur somewhere in `l`?  (Python `pat in l`.) -/
def hasSub (pat : List Char) : List Char → Bool
  | [] => hasPre pat []
  | c :: rest => hasPre pat (c :: rest) || hasSub pat rest

/-- Does `pat` occur at the end of `l`?  (Python `str.endswith`.) -/
def hasSuf (pat l : List Char) : Bool := hasPre pat.reverse l.reverse

/-- Python `s.split('\n')`. -/
def splitNl : List Char → List (List Char)
  | [] => [[]]
  | c :: rest =>
      if c = '\n' then [] :: splitNl rest
      else
        match splitNl rest with
        | [] => [[c]]
        | l :: ls => (c :: l) :: ls

/-- Python `'\n'.join(lines)` over `List Char`. -/
def joinNlL : List (List Char) → List Char
  | [] => []
  | [l] => l
  | l :: ls => l ++ '\n' :: joinNlL ls

/-- Python `'\n'.join(lines)` over `String`. -/
def joinNl : List String → String
  | [] => ""
  | [s] => s
  | s :: ss => s ++ "\n" ++ joinNl ss

/-- Python `text.replace(pat, '')`: delete every (left-to-right,
non-overlapping) occurrence of `pat`.  The scan carries an explicit skip
counter so the recursion is structural: a positive `skip` means the
character is part of a just-matched occurrence and is consumed without
being emitted or re-tested (equivalently, the scan resumes
`pat.length` characters after each match). -/
def removeAllGo (pat : List Char) : List Char → Nat → List Char
  | [], _ => []
  | _ :: rest, skip + 1 => removeAllGo pat rest skip
  | c :: rest, 0 =>
      if pat ≠ [] ∧ hasPre pat (c :: rest) then
        removeAllGo pat rest (pat.length - 1)
      else
        c :: removeAllGo pat rest 0

def removeAll (pat l : List Char) : List Char := removeAllGo pat l 0

/-! ## `clean_ai_response` (backend/app/main.py lines 129-151) -/

/-- The prompt-artifact phrases skipped by `clean_ai_response`. -/
def CLEAN_PHRASES : List String :=
  ["styling instructions:", "ai:", "user:", "context:",
   "example format", "respond naturally", "choose the best format"]

/-- `any(phrase in line.lower() for phrase in CLEAN_PHRASES)`. -/
def phraseHit (l : List Char) : Bool :=
  CLEAN_PHRASES.any fun p => hasSub p.data (lowerL l)

/-- The per-line emphasis removal:
`line.replace('*','').replace('**','').replace('_','').replace('+','')`. -/
def removeEmph (l : List Char) : List Char :=
  removeAll "+".data (removeAll "_".data (removeAll "**".data (removeAll "*".data l)))

/-- One iteration of the `for line in lines` loop of `clean_ai_response`:
`none` when the line is dropped (blank after strip, or a phrase hit),
otherwise the cleaned line that is appended. -/
def cleanLine (l : List Char) : Option (List Char) :=
  let l := stripLR l
  if l = [] then none
  else if phraseHit l then none
  else some (removeEmph l)

/-- `clean_ai_response` from backend/app/main.py: split on newlines, strip
each line, drop blank and instruction-like lines, remove emphasis
characters, rejoin with newlines and strip the whole result. -/
def clean_ai_response (s : String) : String :=
  String.mk (stripLR (joinNlL ((splitNl s.data).filterMap cleanLine)))

/-! ## A small model of `urllib.parse.urlparse`

Only the fields the sources read: `scheme`, `netloc` and `path` of an
absolute `scheme://netloc/path?query#fragment` URL (query and fragment are
stripped from `path`, as `urlparse` does).  A URL without `://` is treated
as having empty scheme and netloc and the whole text as path. -/

structure UrlParts where
  scheme : String
  netloc : String
  path : String
deriving Repr, DecidableEq

/-- Split `l` at the first occurrence of `pat` (nonempty), if any. -/
def splitFirst (pat : List Char) : List Char → Option (List Char × List Char)
  | [] => none
  | c :: rest =>
      if hasPre pat (c :: rest) then some ([], (c :: rest).drop pat.length)
      else
        match splitFirst pat rest with
        | some (a, b) => some (c :: a, b)
        | none => none

def pyUrlparse (url : String) : UrlParts :=
  match splitFirst "://".data url.data with
  | none => ⟨"", "", url⟩
  | some (sch, rest) =>
      let netloc := rest.takeWhile (fun c => c ≠ '/')
      let pathq := rest.drop netloc.length
      let path := pathq.takeWhile (fun c => c ≠ '?' ∧ c ≠ '#')
      ⟨String.mk (lowerL sch), String.mk netloc, String.mk path⟩

/-- `urlparse(...).hostname`: the netloc after any userinfo, before any
port, lower-cased; `none` when empty. -/
def hostnameOf (netloc : String) : Option String :=
  let afterUser := ((netloc.data.reverse.takeWhile (fun c => c ≠ '@')).reverse)
  let host := afterUser.takeWhile (fun c => c ≠ ':')
  if host = [] then none else some (String.mk (lowerL host))

/-! ## `should_follow` (scripts/crawl_site_text.py lines 90-104)

The source reads:

  good = ["/personal", "/business", "/content/dam", "/important-info"]
  if not any(p in p.path.lower() for p in good):

The generator expression rebinds `p` from the parsed URL to the string
"/personal"; evaluating `p.path` on that string raises
`AttributeError: 'str' object has no attribute 'path'` before the
membership test can run.  So every URL that passes the scheme and host
checks makes `should_follow` raise instead of returning a boolean.  The
embedding returns `Except PyError Bool` to capture this. -/

inductive PyError where
  | attributeError
deriving Repr, DecidableEq

def ROOT_DOMAIN : String := "commbank.com.au"

def should_follow (url : String) : Except PyError Bool :=
  let p := pyUrlparse url
  if ¬ hasPre "http".data p.scheme.data then .ok false
  else
    match hostnameOf p.netloc with
    | none => .ok false
    | some host =>
        if ¬ hasSuf ROOT_DOMAIN.data host.data then .ok false
        else .error .attributeError

/-! ## Content stores

The file system is an association list `name ↦ content`; `open(path,"w")`
overwrites an existing file of the same name and otherwise creates a new
one.  The sha-256 hash is an external capability, passed as `h`. -/

def writeFile (fs : List (String × String)) (name content : String) :
    List (String × String) :=
  if (fs.find? fun e => e.1 = name).isSome then
    fs.map fun e => if e.1 = name then (name, content) else e
  else fs ++ [(name, content)]

/-! ### Page-text store (scripts/crawl_site_text.py lines 71-87)

`save_page_text` names the file by the first 16 hex digits of the sha-256
of the **URL** (not of the content) and always writes; `append_manifest`
appends one `url,filename` row.  `crawl` calls them back to back. -/

structure TextStore where
  files : List (String × String)
  manifest : List (String × String)
deriving Repr, DecidableEq

def save_page_text (h : String → String) (st : TextStore) (url text : String) :
    TextStore × String :=
  let fileId := (h url).take 16
  let filename := fileId ++ ".txt"
  ({ st with files := writeFile st.files filename (url ++ "\n\n" ++ text) }, filename)

def append_manifest (st : TextStore) (url filename : String) : TextStore :=
  { st with manifest := st.manifest ++ [(url, filename)] }

/-- The `save_page_text`/`append_manifest` pair as executed by `crawl` for
one accepted page. -/
def crawl_save_step (h : String → String) (st : TextStore) (url text : String) :
    TextStore :=
  let p := save_page_text h st url text
  append_manifest p.1 url p.2

/-! ### PDF store (scripts/download_pdfs.py lines 93-210)

`download_pdf`, after a successful fetch of `data`: hash the content,
look the hash up in the manifest; on a hit append a manifest row that
reuses the existing filename and write nothing; on a miss derive a
filename from the hash prefix and the URL basename, write the file and
append a row. -/

structure PdfRow where
  source_url : String
  pdf_url : String
  saved_filename : String
  filesize_bytes : Nat
  sha256 : String
  http_status : Nat
deriving Repr, DecidableEq

structure PdfStore where
  files : List (String × String)
  manifest : List PdfRow
deriving Repr, DecidableEq

def manifest_has_sha (manifest : List PdfRow) (sha : String) : Option String :=
  (manifest.find? fun r => r.sha256 = sha).map fun r => r.saved_filename

/-- `os.path.basename(parsed.path)`: the part after the last `/`. -/
def basenameOf (path : String) : String :=
  String.mk (path.data.reverse.takeWhile (fun c => c ≠ '/')).reverse

def safe_filename_from_url (h : String → String) (url : String) : String :=
  let parsed := pyUrlparse url
  let name := basenameOf parsed.path
  let name :=
    if name = "" ∨ ¬ hasSuf ".pdf".data (lowerL name.data) then
      (h url).take 8 ++ ".pdf"
    else name
  String.mk ((name.data.takeWhile (fun c => c ≠ '?')).takeWhile (fun c => c ≠ '#'))

/-- The content-store effect of one successful `download_pdf url source_page`
whose response body is `data` (status 200). -/
def download_pdf_put (h : String → String) (st : PdfStore)
    (url source_page data : String) : PdfStore :=
  let sha := h data
  match manifest_has_sha st.manifest sha with
  | some existing =>
      { st with manifest := st.manifest ++
          [⟨source_page, url, existing, data.length, sha, 200⟩] }
  | none =>
      let save_name := sha.take 8 ++ "_" ++ safe_filename_from_url h url
      { files := writeFile st.files save_name data,
        manifest := st.manifest ++
          [⟨source_page, url, save_name, data.length, sha, 200⟩] }

/-! ## The chunker (scripts/embed.py lines 102-116)

`chunk_documents` delegates to LangChain's `RecursiveCharacterTextSplitter`
with `chunk_size=1000`, `chunk_overlap=200`, `length_function=len`,
`separators=["\n\n", "\n", ". ", " ", ""]` and the class defaults
`keep_separator=True` and `strip_whitespace=True`.  The splitter is
embedded here in full:

* `_split_text_with_regex(text, re.escape(sep), keep_separator=True)`
  splits on the literal separator and reattaches each separator to the
  start of the following piece, dropping empty pieces (`splitKeep`);
* `_split_text` picks the first separator occurring in the text (the last
  one as default, `""` always matches), recurses into pieces not shorter
  than `chunk_size` with the remaining separators, and merges runs of
  short pieces (`splitTextAux`/`processSplits`);
* `_merge_splits` (with join separator `""`, since `keep_separator` is
  set) packs pieces into chunks of at most `chunk_size`, keeping a tail
  of at most `chunk_overlap` characters of whole pieces as overlap, and
  `_join_docs` strips each chunk and drops it when empty (`mergeCore`,
  `popOverlap`, `joinDocs`). -/

def CHUNK_SIZE : Nat := 1000
def CHUNK_OVERLAP : Nat := 200

/-- The separator preference list of `chunk_documents`. -/
def SEPS : List (List Char) := ["\n\n".data, "\n".data, ". ".data, " ".data, []]

/-- Python `text.split(sep)` for a literal separator (`pat ≠ []` at
every use; for `pat = []` the match guard is never taken).  As in
`removeAllGo`, a positive `skip` means the character belongs to a
just-matched separator and is consumed silently. -/
def splitPartsGo (pat : List Char) : List Char → Nat → List (List Char)
  | [], _ => [[]]
  | _ :: rest, skip + 1 => splitPartsGo pat rest skip
  | c :: rest, 0 =>
      if pat ≠ [] ∧ hasPre pat (c :: rest) then
        [] :: splitPartsGo pat rest (pat.length - 1)
      else
        match splitPartsGo pat rest 0 with
        | [] => [[c]]
        | l :: ls => (c :: l) :: ls

def splitParts (pat l : List Char) : List (List Char) := splitPartsGo pat l 0

/-- `_split_text_with_regex` with `keep_separator=True`: the separator is
kept at the start of the following piece, empty pieces are dropped; a
`""` separator yields the list of characters. -/
def splitKeep (sep text : List Char) : List (List Char) :=
  if sep = [] then text.map fun c => [c]
  else
    match splitParts sep text with
    | [] => []
    | p :: ps => (p :: ps.map fun q => sep ++ q).filter fun l => l ≠ []

/-- `_join_docs(current_doc, "")`: join, strip, `none` when empty. -/
def joinDocs (docs : List (List Char)) : Option (List Char) :=
  let t := stripLR docs.flatten
  if t = [] then none else some t

/-- The overlap-keeping `while` loop of `_merge_splits`: pop pieces from
the front of `current_doc` while the running total exceeds the overlap
(or would overflow the chunk with the next piece of length `dlen`).
`total` is the sum of the lengths of `cur`, so the loop always stops
before `cur` runs empty. -/
def popOverlap (cs co dlen : Nat) : List (List Char) → Nat → List (List Char) × Nat
  | [], total => ([], total)
  | c :: cur, total =>
      if total > co ∨ (total + dlen > cs ∧ total > 0) then
        popOverlap cs co dlen cur (total - c.length)
      else (c :: cur, total)

/-- The main loop of `_merge_splits` (join separator `""`, so the
separator length is 0): `splits` remaining, `cur`/`total` the current
chunk-in-progress and its length, `docs` the finished chunks. -/
def mergeCore (cs co : Nat) :
    List (List Char) → List (List Char) → Nat → List (List Char) → List (List Char)
  | [], cur, _total, docs => docs ++ (joinDocs cur).toList
  | d :: ds, cur, total, docs =>
      if total + d.length > cs ∧ cur ≠ [] then
        let docs' := docs ++ (joinDocs cur).toList
        let pr := popOverlap cs co d.length cur total
        mergeCore cs co ds (pr.1 ++ [d]) (pr.2 + d.length) docs'
      else
        mergeCore cs co ds (cur ++ [d]) (total + d.length) docs

/-- `_merge_splits(splits, "")`. -/
def mergeSplits (cs co : Nat) (splits : List (List Char)) : List (List Char) :=
  mergeCore cs co splits [] 0 []

/-- The `for s in splits` loop of `_split_text`: pieces shorter than the
chunk size accumulate in `good`; a long piece first flushes `good`
through `_merge_splits`, then is either appended whole (no separators
left, `recurse = none`) or split recursively (`recurse = some f`). -/
def processSplits (cs co : Nat) (recurse : Option (List Char → List (List Char))) :
    List (List Char) → List (List Char) → List (List Char)
  | [], good => if good = [] then [] else mergeSplits cs co good
  | s :: ss, good =>
      if s.length < cs then processSplits cs co recurse ss (good ++ [s])
      else
        (if good = [] then [] else mergeSplits cs co good)
          ++ (match recurse with
              | none => [s]
              | some f => f s)
          ++ processSplits cs co recurse ss []

/-- `_split_text(text, separators)`.  The first clause is unreachable from
`split_text` (the separator list always ends with `""`); Python would
raise an IndexError on `separators[-1]` there. -/
def splitTextAux (cs co : Nat) : List (List Char) → List Char → List (List Char)
  | [], text => [text]
  | s :: rest, text =>
      if s ≠ [] ∧ rest ≠ [] ∧ ¬ hasSub s text then
        splitTextAux cs co rest text
      else
        let splits := splitKeep s text
        if s = [] ∨ rest = [] then processSplits cs co none splits []
        else processSplits cs co (some fun t2 => splitTextAux cs co rest t2) splits []

/-- `RecursiveCharacterTextSplitter.split_text` with the `chunk_documents`
configuration. -/
def splitText (text : String) : List String :=
  (splitTextAux CHUNK_SIZE CHUNK_OVERLAP SEPS text.data).map String.mk

/-- A LangChain `Document`: page content plus a metadata map. -/
structure LCDocument where
  page_content : String
  metadata : List (String × String)
deriving Repr, DecidableEq

/-- `chunk_documents` (scripts/embed.py): `split_documents` splits each
document's text and copies its metadata onto every resulting chunk, in
document order. -/
def chunk_documents (documents : List LCDocument) : List LCDocument :=
  documents.flatMap fun d =>
    (splitText d.page_content).map fun c => ⟨c, d.metadata⟩

/-! ## FAISS index build, persistence and load

`FAISS.from_documents(chunks, HuggingFaceEmbeddings(model_name=m))`
embeds every chunk with model `m` and stores the vectors next to the
docstore.  `save_local` writes `index.faiss` (the raw vectors) and
`index.pkl` (docstore and id map) — and nothing else: in particular **no
record of the embedding model identity**.  `load_local(path, embeddings)`
rebuilds the store from those two files with whatever embedding object
the caller passes, performing no compatibility check.  The embedding
capability is a parameter `embed : model name → text → vector`. -/

/-- What `save_local` persists: vectors and docstore, no model identity. -/
structure FaissBundle where
  indexVectors : List (List Int)
  docstore : List LCDocument
deriving Repr, DecidableEq

/-- An in-memory FAISS vector store: the persisted data plus the
embedding object used for query-time embedding. -/
structure FaissStore where
  bundle : FaissBundle
  queryModel : String
deriving Repr, DecidableEq

def faiss_from_documents (embed : String → String → List Int) (model : String)
    (docs : List LCDocument) : FaissStore :=
  ⟨⟨docs.map fun d => embed model d.page_content, docs⟩, model⟩

def save_local (s : FaissStore) : FaissBundle := s.bundle

def load_local (b : FaissBundle) (model : String) : FaissStore := ⟨b, model⟩

/-- Squared L2 distance, componentwise over the common length
(`IndexFlatL2`'s metric; build and query vectors share a dimension). -/
def sqDist (u v : List Int) : Int :=
  ((u.zip v).map fun p => (p.1 - p.2) * (p.1 - p.2)).sum

/-- Stable insertion by ascending score (FAISS returns neighbours by
increasing L2 distance; ties keep index order). -/
def insertByScore (x : LCDocument × Int) :
    List (LCDocument × Int) → List (LCDocument × Int)
  | [] => [x]
  | y :: ys => if x.2 < y.2 then x :: y :: ys else y :: insertByScore x ys

def sortByScore : List (LCDocument × Int) → List (LCDocument × Int)
  | [] => []
  | x :: xs => insertByScore x (sortByScore xs)

/-- `vectorstore.similarity_search(query, k)`: embed the query with the
store's own embedding object and return the `k` nearest stored documents. -/
def similarity_search (embed : String → String → List Int) (vs : FaissStore)
    (query : String) (k : Nat) : List LCDocument :=
  let qv := embed vs.queryModel query
  let scored := (vs.bundle.indexVectors.zip vs.bundle.docstore).map
    fun p => (p.2, sqDist qv p.1)
  ((sortByScore scored).take k).map fun p => p.1

/-! ## `create_embeddings` (scripts/embed.py lines 119-149) -/

def EMBEDDING_MODEL : String := "sentence-transformers/all-MiniLM-L6-v2"

/-- How one run of `create_embeddings` ends. -/
inductive BuildOutcome where
  /-- `logger.error("No documents found to process!"); return` — the build
  stops with an error diagnostic, before touching the index files. -/
  | errorNoDocuments
  /-- `FAISS.from_documents([], ...)` raises `IndexError` on
  `embeddings[0]`; the run aborts before `save_local`. -/
  | crashedEmptyChunks
  | completed
deriving Repr, DecidableEq

structure BuildResult where
  outcome : BuildOutcome
  /-- The index bundle written to `INDEX_DIR`, if the run reached
  `save_local`. -/
  persisted : Option FaissBundle
deriving Repr, DecidableEq

/-- `create_embeddings`, given the loaded documents (file loading is the
fetch capability's concern): bail out with an error when there are no
documents; chunk; embed with `EMBEDDING_MODEL`; build and persist. -/
def create_embeddings (embed : String → String → List Int)
    (documents : List LCDocument) : BuildResult :=
  if documents = [] then ⟨.errorNoDocuments, none⟩
  else
    let chunks := chunk_documents documents
    if chunks = [] then ⟨.crashedEmptyChunks, none⟩
    else ⟨.completed, some (save_local (faiss_from_documents embed EMBEDDING_MODEL chunks))⟩

/-! ## The service (backend/app/main.py) -/

/-- `get_vectorstore` on first call (the cached-global fast path changes
nothing observable): `RuntimeError` when the index directory is missing,
otherwise `FAISS.load_local(path, get_embeddings())` with the embeddings
for the configured `EMBEDDING_MODEL` — no model-identity check exists. -/
def get_vectorstore (indexOnDisk : Option FaissBundle) (cfgModel : String) :
    Except String FaissStore :=
  match indexOnDisk with
  | none => .error "Index directory not found"
  | some b => .ok (load_local b cfgModel)

/-- One `{user, ai}` turn of `_conversations[conversation_id]`. -/
structure Turn where
  user : String
  ai : String
deriving Repr, DecidableEq

/-- The `_conversations` dict. -/
abbrev ConvMap := List (String × List Turn)

def getConv (m : ConvMap) (cid : String) : Option (List Turn) :=
  (m.find? fun e => e.1 = cid).map fun e => e.2

def getConvD (m : ConvMap) (cid : String) : List Turn :=
  (getConv m cid).getD []

def setConv : ConvMap → String → List Turn → ConvMap
  | [], cid, ts => [(cid, ts)]
  | (k, v) :: rest, cid, ts =>
      if k = cid then (cid, ts) :: rest else (k, v) :: setConv rest cid ts

/-- `if conversation_id not in _conversations: _conversations[...] = []`
followed by `.append(turn)`. -/
def appendTurn (m : ConvMap) (cid : String) (t : Turn) : ConvMap :=
  match getConv m cid with
  | none => m ++ [(cid, [t])]
  | some ts => setConv m cid (ts ++ [t])

/-- The fixed instruction block at the end of every assembled prompt
(main.py lines 117-125). -/
def PROMPT_RULES : String :=
  "AI: You are a helpful CBA product assistant. Provide clear, structured responses about CBA products and services.\n\n"
    ++ "IMPORTANT FORMATTING RULES:\n"
    ++ "- Format responses naturally with paragraphs, bullet points, or numbered lists when it improves clarity.\n"
    ++ "- Avoid any Markdown symbols such as *, **, _, or +.\n"
    ++ "- Present product names followed by a dash (–) and description.\n"
    ++ "- Use a new line for each product or concept.\n"
    ++ "- Be concise and informative.\n"
    ++ "- Only mention products that are actually available based on the provided context.\n"
    ++ "- Respond in clean, readable plain text.\n"

/-- `format_conversation_history` (main.py lines 105-126): prior turns as
alternating `User:`/`AI:` lines, the new query, the retrieved context and
the fixed instruction block. -/
def format_conversation_history (history : List Turn) (query context : String) :
    String :=
  let history_text := joinNl (history.map fun t => "User: " ++ t.user ++ "\nAI: " ++ t.ai)
  history_text ++ "\n"
    ++ "User: " ++ query ++ "\n\n"
    ++ "Context (from CBA documents):\n" ++ context ++ "\n\n"
    ++ PROMPT_RULES

/-- An exception escaping `groq_client.invoke`. -/
inductive PyExn where
  | exn (msg : String)
deriving Repr, DecidableEq

/-- The fixed no-credential reply of `generate_ai_response`. -/
def NO_KEY_MSG : String :=
  "⚠️ No GROQ_API_KEY found. Please set it in your environment variables."

/-- The fixed reply when the model invocation raises. -/
def TROUBLE_MSG : String :=
  "⚠️ I\u0027m having trouble generating a response. Please try again later."

/-- Python truthiness of `GROQ_API_KEY` (`os.getenv` yields `None` when
unset; an empty string is also falsy). -/
def keyMissing : Option String → Bool
  | none => true
  | some s => s = ""

structure GenResult where
  /-- Whether `groq_client.invoke` was reached. -/
  invoked : Bool
  answer : String
deriving Repr, DecidableEq

/-- `generate_ai_response` (main.py lines 154-168).  `invoke` is the
language-model capability, `prompt ↦ completion or exception`. -/
def generate_ai_response (key : Option String)
    (invoke : String → Except PyExn String)
    (history : List Turn) (query context : String) : GenResult :=
  if keyMissing key then ⟨false, NO_KEY_MSG⟩
  else
    match invoke (format_conversation_history history query context) with
    | .error _ => ⟨true, TROUBLE_MSG⟩
    | .ok content => ⟨true, clean_ai_response (pyStrip content)⟩

structure ChatResponse where
  answer : String
  sources : List (List (String × String))
deriving Repr, DecidableEq

/-- The `/chat` handler (main.py lines 174-193): load the store, search
with `k = 8`, generate (reading the conversation history), then append
the new turn and respond. -/
def chat_route (embed : String → String → List Int) (key : Option String)
    (invoke : String → Except PyExn String) (indexOnDisk : Option FaissBundle)
    (cfgModel : String) (convs : ConvMap) (cid query : String) :
    Except String (ConvMap × ChatResponse) :=
  match get_vectorstore indexOnDisk cfgModel with
  | .error e => .error e
  | .ok vs =>
      let docs := similarity_search embed vs query 8
      let context := joinNl (docs.map fun d => d.page_content)
      let sources := docs.map fun d => d.metadata
      let answer := (generate_ai_response key invoke (getConvD convs cid) query context).answer
      .ok (appendTurn convs cid ⟨query, answer⟩, ⟨answer, sources⟩)

/-- A sequence of `/chat` requests for one conversation id, processed in
arrival order (the index is present, so every request succeeds). -/
def runChats (embed : String → String → List Int) (key : Option String)
    (invoke : String → Except PyExn String) (b : FaissBundle) (cfgModel : String)
    (convs : ConvMap) (cid : String) (queries : List String) : ConvMap :=
  queries.foldl
    (fun m q =>
      match chat_route embed key invoke (some b) cfgModel m cid q with
      | .ok r => r.1
      | .error _ => m)
    convs

/-! ## Spec-side definitions (for refinement comparisons) -/

/-- Modelled from the spec's words (§8 "Chunk reconstruction" and the
claim's "concatenating the chunk texts with the 200-character overlap
trimmed"): keep the first chunk whole, drop the leading `overlap`
characters of every later chunk, concatenate. -/
def specReconstruct (overlap : Nat) : List String → String
  | [] => ""
  | c :: cs => c ++ String.join (cs.map fun s => s.drop overlap)

/-- The lines `clean_ai_response` keeps: not blank after stripping and not
matching a prompt-artifact phrase (case-insensitively). -/
def keepLine (l : List Char) : Bool :=
  ¬ (stripLR l = [] ∨ phraseHit (stripLR l))

/-! # Claims

Each claim of the specification gets one theorem below; counterexamples
and witnesses are closed corollaries evaluated at concrete inputs. -/

/-- C7 (code bug): `should_follow` never returns a boolean for a URL on
the allowed host — the admission check raises `AttributeError` because
the generator expression `any(p in p.path.lower() for p in good)` rebinds
`p` to the pattern string, so `https://www.commbank.com.au/personal/accounts.html`
(which the claim says is admitted) and
`https://www.commbank.com.au/privacy.html` (which the claim says is
rejected) both raise; only URLs failing the scheme or host checks get a
boolean (`false`). -/
theorem c7_should_follow_raises :
    should_follow "https://www.commbank.com.au/personal/accounts.html"
        = Except.error PyError.attributeError ∧
    should_follow "https://www.commbank.com.au/privacy.html"
        = Except.error PyError.attributeError ∧
    should_follow "notaurl" = Except.ok false :=
  ⟨rfl, rfl, rfl⟩

/-- C1 counterexample: an index built with embedding model "model-A"
loads successfully when the service is configured with "model-B" — the
first `get_vectorstore` returns the store (with the build-time vectors
and the mismatched query model) instead of failing with a configuration
error, because the persisted bundle records no model identity. -/
theorem c1_model_guard_counterexample :
    ("model-A" : String) ≠ "model-B" ∧
    get_vectorstore
        (some (save_local (faiss_from_documents
          (fun m t => [Int.ofNat (m.length + t.length)]) "model-A"
          [⟨"Everyday Account", []⟩])))
        "model-B"
      = Except.ok ⟨⟨[[23]], [⟨"Everyday Account", []⟩]⟩, "model-B"⟩ :=
  ⟨by decide, rfl⟩

/-- C1 (amended): the persisted index records no embedding-model
identity and `get_vectorstore` checks none — loading an index built with
model `mA` under a service configured with any model `mB` succeeds and
yields a store whose vectors were computed under `mA` but whose
query-time embedder is `mB`, and a `/chat` request against it is
answered (no configuration error); `get_vectorstore` fails only when the
index directory is missing. -/
theorem c1_model_guard_amended (embed : String → String → List Int)
    (mA mB : String) (chunks : List LCDocument) (key : Option String)
    (invoke : String → Except PyExn String) (convs : ConvMap) (cid q : String) :
    get_vectorstore (some (save_local (faiss_from_documents embed mA chunks))) mB
        = Except.ok ⟨⟨chunks.map fun d => embed mA d.page_content, chunks⟩, mB⟩ ∧
    (∃ r, chat_route embed key invoke
        (some (save_local (faiss_from_documents embed mA chunks))) mB convs cid q
          = Except.ok r) ∧
    (∀ m : String, get_vectorstore none m = Except.error "Index directory not found") :=
  ⟨rfl, ⟨_, rfl⟩, fun _ => rfl⟩

/-- C4: a build run with no loadable documents stops with the
"No documents found to process!" error diagnostic and persists nothing;
moreover no run ever persists an empty index (whenever a bundle is
written, its vector list is nonempty). -/
theorem c4_empty_build (embed : String → String → List Int)
    (documents : List LCDocument) (h : documents = []) :
    create_embeddings embed documents = ⟨.errorNoDocuments, none⟩ ∧
    ∀ (docs2 : List LCDocument) (b : FaissBundle),
      (create_embeddings embed docs2).persisted = some b → b.indexVectors ≠ [] := by
  constructor
  · subst h; rfl
  · intro docs2 b hb
    by_cases h2 : docs2 = []
    · simp [create_embeddings, h2] at hb
    · by_cases h3 : chunk_documents docs2 = []
      · simp [create_embeddings, h2, h3] at hb
      · simp [create_embeddings, h2, h3, save_local, faiss_from_documents] at hb
        rw [← hb]
        simpa using h3

/-- C4 witness: the empty run at a concrete embedder, and a concrete run
(one "hello" document) whose persisted bundle is nonempty. -/
theorem c4_empty_build_witness :
    create_embeddings (fun _ _ => ([0] : List Int)) [] = ⟨.errorNoDocuments, none⟩ ∧
    ([[(0 : Int)]] : List (List Int)) ≠ [] :=
  ⟨(c4_empty_build (fun _ _ => ([0] : List Int)) [] rfl).1,
   (c4_empty_build (fun _ _ => ([0] : List Int)) [] rfl).2
     [⟨"hello", []⟩] ⟨[[0]], [⟨"hello", []⟩]⟩ (by decide)⟩

/-- C5: with no generation credential, `generate_ai_response` returns the
fixed no-key apology without reaching the model invocation (for every
possible invocation behaviour); with a credential, an invocation that
raises is caught locally and turned into the (different) fixed trouble
apology. -/
theorem c5_generate_fallback (invoke : String → Except PyExn String)
    (history : List Turn) (query context : String) :
    (∀ key : Option String, keyMissing key = true →
        generate_ai_response key invoke history query context = ⟨false, NO_KEY_MSG⟩) ∧
    (∀ (key : Option String) (e : PyExn), keyMissing key = false →
        (∀ p, invoke p = .error e) →
        generate_ai_response key invoke history query context = ⟨true, TROUBLE_MSG⟩) ∧
    NO_KEY_MSG ≠ TROUBLE_MSG := by
  refine ⟨?_, ?_, by decide⟩
  · intro key hk
    simp [generate_ai_response, hk]
  · intro key e hk hinv
    simp [generate_ai_response, hk, hinv]

/-- C5 witness: both fallback paths at concrete inputs. -/
theorem c5_generate_fallback_witness :
    generate_ai_response none (fun _ => .ok "hi") [] "q" "ctx" = ⟨false, NO_KEY_MSG⟩ ∧
    generate_ai_response (some "k") (fun _ => .error (.exn "boom")) [] "q" "ctx"
      = ⟨true, TROUBLE_MSG⟩ :=
  ⟨(c5_generate_fallback (fun _ => .ok "hi") [] "q" "ctx").1 none rfl,
   (c5_generate_fallback (fun _ => .error (.exn "boom")) [] "q" "ctx").2.1
     (some "k") (.exn "boom") (by decide) (fun _ => rfl)⟩

lemma find?_append_none {α} (p : α → Bool) (l1 l2 : List α)
    (h : l1.find? p = none) : (l1 ++ l2).find? p = l2.find? p := by
  induction l1 with
  | nil => simp
  | cons a l ih =>
      cases hpa : p a with
      | true => simp [List.find?_cons_of_pos _ hpa] at h
      | false =>
          have hpa' : ¬ p a = true := by simp [hpa]
          rw [List.find?_cons_of_neg _ hpa'] at h
          rw [List.cons_append, List.find?_cons_of_neg _ hpa']
          exact ih h

lemma writeFile_fresh (fs : List (String × String)) (name content : String)
    (h : ∀ e ∈ fs, e.1 ≠ name) :
    writeFile fs name content = fs ++ [(name, content)] := by
  have hf : (fs.find? fun e => e.1 = name) = none := by
    rw [List.find?_eq_none]
    intro e he
    simpa using h e he
  simp [writeFile, hf]

lemma download_pdf_put_miss (h : String → String) (st : PdfStore)
    (url sp data : String)
    (hm : manifest_has_sha st.manifest (h data) = none) :
    download_pdf_put h st url sp data =
      { files := writeFile st.files
          ((h data).take 8 ++ "_" ++ safe_filename_from_url h url) data,
        manifest := st.manifest ++
          [⟨sp, url, (h data).take 8 ++ "_" ++ safe_filename_from_url h url,
            data.length, h data, 200⟩] } := by
  simp only [download_pdf_put, hm]

lemma download_pdf_put_hit (h : String → String) (st : PdfStore)
    (url sp data fn : String)
    (hm : manifest_has_sha st.manifest (h data) = some fn) :
    download_pdf_put h st url sp data =
      { st with manifest := st.manifest ++
          [⟨sp, url, fn, data.length, h data, 200⟩] } := by
  simp only [download_pdf_put, hm]

lemma crawl_save_step_eq (h : String → String) (st : TextStore) (url text : String) :
    crawl_save_step h st url text =
      { files := writeFile st.files ((h url).take 16 ++ ".txt") (url ++ "\n\n" ++ text),
        manifest := st.manifest ++ [(url, (h url).take 16 ++ ".txt")] } := rfl

/-- C2 counterexample: two byte-identical pages fetched from two distinct
URLs are both written by the page-text path — the store gains two files
and the two manifest rows name two different stored files, because
`save_page_text` derives the filename from the hash of the URL, not of
the content.  (The hash capability is instantiated with the identity
function, which, like the sha-256 hex digest, distinguishes these two
URLs.) -/
theorem c2_dedup_counterexample :
    (crawl_save_step (fun s => s)
        (crawl_save_step (fun s => s) ⟨[], []⟩ "https://x/a" "Same")
        "https://x/b" "Same").files.length = 2 ∧
    (crawl_save_step (fun s => s)
        (crawl_save_step (fun s => s) ⟨[], []⟩ "https://x/a" "Same")
        "https://x/b" "Same").manifest
      = [("https://x/a", "https://x/a.txt"), ("https://x/b", "https://x/b.txt")] ∧
    ("https://x/a.txt" : String) ≠ "https://x/b.txt" := by
  refine ⟨by decide, by decide, by decide⟩

/-- C2 (amended): the dedup invariant holds for the PDF path — the second
download of byte-identical content from a distinct URL finds the hash in
the manifest, writes no file, and appends a row reusing the first row's
stored filename and hash — but not for the page-text path, which writes
one file per URL unconditionally: byte-identical pages from two distinct
URLs yield two stored files and two manifest rows naming different
files. -/
theorem c2_dedup_amended (h : String → String) (pst : PdfStore)
    (u1 u2 src d : String) (tst : TextStore) (t1 t2 text : String)
    (hfresh : manifest_has_sha pst.manifest (h d) = none)
    (hfile : ∀ e ∈ pst.files,
      e.1 ≠ (h d).take 8 ++ "_" ++ safe_filename_from_url h u1)
    (hname : (h t1).take 16 ++ ".txt" ≠ (h t2).take 16 ++ ".txt")
    (htf1 : ∀ e ∈ tst.files, e.1 ≠ (h t1).take 16 ++ ".txt")
    (htf2 : ∀ e ∈ tst.files, e.1 ≠ (h t2).take 16 ++ ".txt") :
    (download_pdf_put h (download_pdf_put h pst u1 src d) u2 src d).files.length
        = pst.files.length + 1 ∧
    (download_pdf_put h (download_pdf_put h pst u1 src d) u2 src d).manifest
        = pst.manifest ++
          [⟨src, u1, (h d).take 8 ++ "_" ++ safe_filename_from_url h u1, d.length, h d, 200⟩,
           ⟨src, u2, (h d).take 8 ++ "_" ++ safe_filename_from_url h u1, d.length, h d, 200⟩] ∧
    (crawl_save_step h (crawl_save_step h tst t1 text) t2 text).files.length
        = tst.files.length + 2 ∧
    (crawl_save_step h (crawl_save_step h tst t1 text) t2 text).manifest
        = tst.manifest ++
          [(t1, (h t1).take 16 ++ ".txt"), (t2, (h t2).take 16 ++ ".txt")] := by
  have hput1 := download_pdf_put_miss h pst u1 src d hfresh
  rw [writeFile_fresh _ _ _ hfile] at hput1
  have hfind : pst.manifest.find? (fun r => r.sha256 = h d) = none := by
    rw [manifest_has_sha] at hfresh
    cases hfind : pst.manifest.find? (fun r => r.sha256 = h d) with
    | none => rfl
    | some r => rw [hfind] at hfresh; simp at hfresh
  have hsha2 : manifest_has_sha (download_pdf_put h pst u1 src d).manifest (h d)
      = some ((h d).take 8 ++ "_" ++ safe_filename_from_url h u1) := by
    rw [hput1]
    show manifest_has_sha (pst.manifest ++ _) (h d) = _
    rw [manifest_has_sha, find?_append_none _ _ _ hfind]
    simp [List.find?]
  have hput2 := download_pdf_put_hit h (download_pdf_put h pst u1 src d) u2 src d
    ((h d).take 8 ++ "_" ++ safe_filename_from_url h u1) hsha2
  have hts1 := crawl_save_step_eq h tst t1 text
  rw [writeFile_fresh _ _ _ htf1] at hts1
  have hts2 := crawl_save_step_eq h (crawl_save_step h tst t1 text) t2 text
  rw [hts1] at hts2
  rw [writeFile_fresh] at hts2
  · refine ⟨?_, ?_, ?_, ?_⟩
    · rw [hput2, hput1]
      simp
    · rw [hput2, hput1]
      simp
    · rw [hts1, hts2]
      simp
    · rw [hts1, hts2]
      simp
  · intro e he
    simp only [List.mem_append, List.mem_singleton] at he
    rcases he with he | he
    · exact htf2 e he
    · rw [he]
      exact hname

/-- C2 witness: both paths at concrete inputs (hash capability: identity,
which distinguishes all inputs used). -/
theorem c2_dedup_witness :
    (download_pdf_put (fun s => s)
        (download_pdf_put (fun s => s) ⟨[], []⟩ "https://a.example/f.pdf" "working_list" "PDFDATA")
        "https://b.example/g.pdf" "working_list" "PDFDATA").files.length = 1 ∧
    (download_pdf_put (fun s => s)
        (download_pdf_put (fun s => s) ⟨[], []⟩ "https://a.example/f.pdf" "working_list" "PDFDATA")
        "https://b.example/g.pdf" "working_list" "PDFDATA").manifest
      = [⟨"working_list", "https://a.example/f.pdf", "PDFDATA_f.pdf", 7, "PDFDATA", 200⟩,
         ⟨"working_list", "https://b.example/g.pdf", "PDFDATA_f.pdf", 7, "PDFDATA", 200⟩] := by
  have M := c2_dedup_amended (fun s => s) ⟨[], []⟩
    "https://a.example/f.pdf" "https://b.example/g.pdf" "working_list" "PDFDATA"
    ⟨[], []⟩ "https://x/a" "https://x/b" "Same"
    rfl (fun e he => absurd he (List.not_mem_nil e)) (by decide)
    (fun e he => absurd he (List.not_mem_nil e))
    (fun e he => absurd he (List.not_mem_nil e))
  exact ⟨M.1, Eq.trans M.2.1 (by decide)⟩

lemma getConv_cons_ne (k : String) (v : List Turn) (rest : ConvMap)
    (cid : String) (hk : ¬ k = cid) :
    getConv ((k, v) :: rest) cid = getConv rest cid := by
  simp [getConv, List.find?, hk]

lemma getConv_cons_eq (k : String) (v : List Turn) (rest : ConvMap)
    (cid : String) (hk : k = cid) :
    getConv ((k, v) :: rest) cid = some v := by
  simp [getConv, List.find?, hk]

lemma getConv_setConv (m : ConvMap) (cid : String) (ts : List Turn)
    (h : getConv m cid ≠ none) :
    getConv (setConv m cid ts) cid = some ts := by
  induction m with
  | nil => simp [getConv] at h
  | cons e rest ih =>
      obtain ⟨k, v⟩ := e
      by_cases hk : k = cid
      · rw [setConv, if_pos hk]
        exact getConv_cons_eq cid ts rest cid rfl
      · rw [setConv, if_neg hk]
        rw [getConv_cons_ne k v rest cid hk] at h
        rw [getConv_cons_ne k v (setConv rest cid ts) cid hk]
        exact ih h

lemma getConvD_appendTurn (m : ConvMap) (cid : String) (t : Turn) :
    getConvD (appendTurn m cid t) cid = getConvD m cid ++ [t] := by
  rw [appendTurn]
  cases hg : getConv m cid with
  | none =>
      have hf : (m.find? fun e => e.1 = cid) = none := by
        rw [getConv] at hg
        cases hf : m.find? fun e => e.1 = cid with
        | none => rfl
        | some e => rw [hf] at hg; simp at hg
      rw [getConvD, getConv, find?_append_none _ _ _ hf]
      rw [getConvD, hg]
      simp [List.find?]
  | some ts =>
      rw [getConvD, getConv_setConv m cid _ (by rw [hg]; exact fun hc => by cases hc)]
      rw [getConvD, hg]
      rfl

lemma runChats_users (embed : String → String → List Int) (key : Option String)
    (invoke : String → Except PyExn String) (b : FaissBundle) (cfg : String)
    (cid : String) (qs : List String) :
    ∀ m : ConvMap,
      (getConvD (runChats embed key invoke b cfg m cid qs) cid).map Turn.user
        = (getConvD m cid).map Turn.user ++ qs := by
  induction qs with
  | nil => intro m; simp [runChats]
  | cons q qs ih =>
      intro m
      obtain ⟨ans, hstep⟩ :
          ∃ ans, runChats embed key invoke b cfg m cid (q :: qs)
            = runChats embed key invoke b cfg (appendTurn m cid ⟨q, ans⟩) cid qs :=
        ⟨_, rfl⟩
      rw [hstep, ih, getConvD_appendTurn]
      simp

/-- C6: starting from a state with no entry for `cid`, processing `N`
queries sequentially leaves `cid`'s history with exactly `N` turns whose
user texts are the queries in arrival order (the entry is created by the
first request and each request only appends one turn). -/
theorem c6_conversation_order (embed : String → String → List Int)
    (key : Option String) (invoke : String → Except PyExn String)
    (b : FaissBundle) (cfg : String) (convs : ConvMap) (cid : String)
    (queries : List String) (h : getConv convs cid = none) :
    (getConvD (runChats embed key invoke b cfg convs cid queries) cid).length
        = queries.length ∧
    (getConvD (runChats embed key invoke b cfg convs cid queries) cid).map Turn.user
        = queries := by
  have hmap := runChats_users embed key invoke b cfg cid queries convs
  have h0 : getConvD convs cid = [] := by rw [getConvD, h]; rfl
  rw [h0] at hmap
  simp only [List.map_nil, List.nil_append] at hmap
  refine ⟨?_, hmap⟩
  have hlen := congrArg List.length hmap
  simpa using hlen

/-- C6 witness: two queries on a fresh conversation id. -/
theorem c6_conversation_order_witness :
    (getConvD (runChats (fun _ _ => []) none (fun _ => .ok "") ⟨[], []⟩ "m"
        [] "c" ["q1", "q2"]) "c").length = 2 ∧
    (getConvD (runChats (fun _ _ => []) none (fun _ => .ok "") ⟨[], []⟩ "m"
        [] "c" ["q1", "q2"]) "c").map Turn.user = ["q1", "q2"] :=
  c6_conversation_order (fun _ _ => []) none (fun _ => .ok "") ⟨[], []⟩ "m"
    [] "c" ["q1", "q2"] rfl

lemma joinNl_snoc (xs : List String) (x : String) :
    joinNl (xs ++ [x]) = if xs = [] then x else joinNl xs ++ "\n" ++ x := by
  induction xs with
  | nil => simp [joinNl]
  | cons y ys ih =>
      cases ys with
      | nil => rw [if_neg (by simp)]; rfl
      | cons z zs =>
          rw [if_neg (by simp)]
          show y ++ "\n" ++ joinNl ((z :: zs) ++ [x]) = (y ++ "\n" ++ joinNl (z :: zs)) ++ "\n" ++ x
          rw [ih, if_neg (by simp)]
          simp [String.append_assoc]

/-- Rendering one appended turn in `format_conversation_history`: the
assembled prompt contains `"AI: "` followed by the turn's answer text. -/
lemma format_history_split (history : List Turn) (t : Turn) (q2 c2 : String) :
    ∃ pre post : String,
      format_conversation_history (history ++ [t]) q2 c2
        = pre ++ ("AI: " ++ t.ai) ++ post := by
  have hA : ("User: " ++ t.user ++ "\nAI: ") ++ t.ai
      = ("User: " ++ t.user ++ "\n") ++ ("AI: " ++ t.ai) := by
    simp only [String.append_assoc]
    rfl
  by_cases hh : (history.map fun u => "User: " ++ u.user ++ "\nAI: " ++ u.ai) = []
  · refine ⟨"User: " ++ t.user ++ "\n",
      "\n" ++ "User: " ++ q2 ++ "\n\n" ++ "Context (from CBA documents):\n"
        ++ c2 ++ "\n\n" ++ PROMPT_RULES, ?_⟩
    rw [format_conversation_history]
    simp only [List.map_append, List.map_singleton, joinNl_snoc, hh]
    rw [show ("User: " ++ t.user ++ "\nAI: " ++ t.ai)
        = ("User: " ++ t.user ++ "\nAI: ") ++ t.ai from rfl, hA]
    simp [String.append_assoc]
  · refine ⟨joinNl (history.map fun u => "User: " ++ u.user ++ "\nAI: " ++ u.ai)
        ++ "\n" ++ ("User: " ++ t.user ++ "\n"),
      "\n" ++ "User: " ++ q2 ++ "\n\n" ++ "Context (from CBA documents):\n"
        ++ c2 ++ "\n\n" ++ PROMPT_RULES, ?_⟩
    rw [format_conversation_history]
    simp only [List.map_append, List.map_singleton, joinNl_snoc]
    rw [if_neg hh]
    rw [show ("User: " ++ t.user ++ "\nAI: " ++ t.ai)
        = ("User: " ++ t.user ++ "\nAI: ") ++ t.ai from rfl, hA]
    simp [String.append_assoc]

/-- C10: every `/chat` request that completes appends exactly one turn
`{user := query, ai := answer}` to its conversation; when generation is
degraded (no credential, or an invocation that always raises) the request
still completes, the recorded `ai` text is the corresponding fixed
apology, and any later prompt built from that conversation contains the
apology verbatim after an "AI: " marker. -/
theorem c10_error_turn_append (embed : String → String → List Int)
    (key : Option String) (invoke : String → Except PyExn String)
    (b : FaissBundle) (cfg : String) (convs : ConvMap) (cid q : String)
    (h : keyMissing key = true ∨ ∃ e, ∀ p, invoke p = Except.error e) :
    ∃ m2 resp, chat_route embed key invoke (some b) cfg convs cid q
        = Except.ok (m2, resp) ∧
      getConvD m2 cid = getConvD convs cid ++ [⟨q, resp.answer⟩] ∧
      (resp.answer = NO_KEY_MSG ∨ resp.answer = TROUBLE_MSG) ∧
      ∀ q2 c2, ∃ pre post : String,
        format_conversation_history (getConvD m2 cid) q2 c2
          = pre ++ ("AI: " ++ resp.answer) ++ post := by
  obtain ⟨ans, sources, hstep⟩ :
      ∃ ans sources, chat_route embed key invoke (some b) cfg convs cid q
        = Except.ok (appendTurn convs cid ⟨q, ans⟩, ⟨ans, sources⟩) ∧
          ans = (generate_ai_response key invoke (getConvD convs cid) q
            (joinNl ((similarity_search embed (load_local b cfg) q 8).map
              fun d => d.page_content))).answer :=
    ⟨_, _, rfl, rfl⟩
  refine ⟨appendTurn convs cid ⟨q, ans⟩, ⟨ans, sources⟩, hstep.1, ?_, ?_, ?_⟩
  · exact getConvD_appendTurn convs cid ⟨q, ans⟩
  · rw [hstep.2]
    cases hk : keyMissing key with
    | true => left; simp [generate_ai_response, hk]
    | false =>
        rcases h with h | ⟨e, he⟩
        · rw [hk] at h; cases h
        · right; simp [generate_ai_response, hk, he]
  · intro q2 c2
    rw [getConvD_appendTurn convs cid ⟨q, ans⟩]
    exact format_history_split (getConvD convs cid) ⟨q, ans⟩ q2 c2

/-- C10 witness: a no-credential request on a fresh conversation. -/
theorem c10_error_turn_append_witness :
    ∃ m2 resp, chat_route (fun _ _ => []) none (fun _ => .ok "hi") (some ⟨[], []⟩)
        "m" [] "c" "hello" = Except.ok (m2, resp) ∧
      getConvD m2 "c" = getConvD [] "c" ++ [⟨"hello", resp.answer⟩] ∧
      (resp.answer = NO_KEY_MSG ∨ resp.answer = TROUBLE_MSG) ∧
      ∀ q2 c2, ∃ pre post : String,
        format_conversation_history (getConvD m2 "c") q2 c2
          = pre ++ ("AI: " ++ resp.answer) ++ post :=
  c10_error_turn_append (fun _ _ => []) none (fun _ => .ok "hi") ⟨[], []⟩
    "m" [] "c" "hello" (Or.inl rfl)

lemma removeAll_single (c : Char) (l : List Char) :
    removeAll [c] l = l.filter (fun x => x ≠ c) := by
  rw [removeAll]
  induction l with
  | nil => rfl
  | cons a l ih =>
      by_cases hac : c = a
      · have hp : hasPre [c] (a :: l) = true := by simp [hasPre, hac]
        rw [removeAllGo, if_pos ⟨by simp, hp⟩]
        simp only [List.length_cons, List.length_nil]
        rw [ih]
        rw [List.filter_cons_of_neg (by simp [hac.symm])]
      · have hp : hasPre [c] (a :: l) = false := by simp [hasPre, hac]
        rw [removeAllGo, if_neg (by simp [hp])]
        rw [ih]
        rw [List.filter_cons_of_pos (by simpa using fun h => hac h.symm)]

lemma removeAllGo_sublist (pat : List Char) :
    ∀ (l : List Char) (skip : Nat), List.Sublist (removeAllGo pat l skip) l := by
  intro l
  induction l with
  | nil => intro skip; simp [removeAllGo]
  | cons c rest ih =>
      intro skip
      cases skip with
      | succ k =>
          rw [removeAllGo]
          exact (ih k).cons c
      | zero =>
          rw [removeAllGo]
          by_cases hcond : ([] : List Char) ≠ pat.reverse.reverse ∧ hasPre pat (c :: rest)
          · rw [if_pos (by simpa using hcond)]
            exact (ih _).cons c
          · rw [if_neg (by simpa using hcond)]
            exact (ih 0).cons₂ c

lemma removeAll_sublist (pat : List Char) (l : List Char) :
    List.Sublist (removeAll pat l) l :=
  removeAllGo_sublist pat l 0

/-- No emphasis character survives the `replace` chain of
`clean_ai_response`. -/
lemma removeEmph_no_emphasis (l : List Char) :
    ∀ c ∈ removeEmph l, c ≠ '*' ∧ c ≠ '_' ∧ c ≠ '+' := by
  intro c hc
  rw [removeEmph] at hc
  rw [removeAll_single] at hc
  have hc1 := List.mem_filter.mp hc
  have hplus : c ≠ '+' := by simpa using hc1.2
  have hc2 : c ∈ removeAll "_".data (removeAll "**".data (removeAll "*".data l)) := hc1.1
  have h3 : ("_".data : List Char) = ['_'] := rfl
  rw [h3, removeAll_single] at hc2
  have hc3 := List.mem_filter.mp hc2
  have hund : c ≠ '_' := by simpa using hc3.2
  have hc4 : c ∈ removeAll "*".data l :=
    (removeAll_sublist "**".data _).subset hc3.1
  have h5 : ("*".data : List Char) = ['*'] := rfl
  rw [h5, removeAll_single] at hc4
  have hstar : c ≠ '*' := by simpa using (List.mem_filter.mp hc4).2
  exact ⟨hstar, hund, hplus⟩

lemma mem_stripLR {c : Char} {l : List Char} (h : c ∈ stripLR l) : c ∈ l := by
  rw [stripLR] at h
  rw [List.mem_reverse] at h
  have h1 := (List.dropWhile_sublist pySpace).subset h
  rw [List.mem_reverse] at h1
  exact (List.dropWhile_sublist pySpace).subset h1

lemma mem_joinNlL {c : Char} : ∀ {ls : List (List Char)},
    c ∈ joinNlL ls → c = '\n' ∨ ∃ l ∈ ls, c ∈ l := by
  intro ls
  induction ls with
  | nil => intro h; simp [joinNlL] at h
  | cons l ls ih =>
      intro h
      cases ls with
      | nil =>
          right
          exact ⟨l, by simp, h⟩
      | cons l2 ls2 =>
          have h2 : c ∈ l ++ '\n' :: joinNlL (l2 :: ls2) := h
          rw [List.mem_append] at h2
          replace h := h2
          rcases h with h | h
          · right; exact ⟨l, by simp, h⟩
          · rw [List.mem_cons] at h
            rcases h with h | h
            · left; exact h
            · rcases ih h with h | ⟨m, hm, hcm⟩
              · left; exact h
              · right; exact ⟨m, by simp [hm], hcm⟩

lemma splitNl_ne_nil (l : List Char) : splitNl l ≠ [] := by
  cases l with
  | nil => simp [splitNl]
  | cons c rest =>
      rw [splitNl]
      by_cases hc : c = '\n'
      · simp [hc]
      · rw [if_neg hc]
        cases h : splitNl rest with
        | nil => simp
        | cons a as => simp

lemma splitNl_no_nl (l : List Char) : ∀ m ∈ splitNl l, '\n' ∉ m := by
  induction l with
  | nil => intro m hm; simp [splitNl] at hm; simp [hm]
  | cons c rest ih =>
      intro m hm
      rw [splitNl] at hm
      by_cases hc : c = '\n'
      · rw [if_pos hc] at hm
        rw [List.mem_cons] at hm
        rcases hm with hm | hm
        · simp [hm]
        · exact ih m hm
      · rw [if_neg hc] at hm
        cases h : splitNl rest with
        | nil => exact absurd h (splitNl_ne_nil rest)
        | cons a as =>
            rw [h] at hm
            rw [List.mem_cons] at hm
            rcases hm with hm | hm
            · rw [hm]
              intro hin
              rw [List.mem_cons] at hin
              rcases hin with hin | hin
              · exact hc hin.symm
              · exact ih a (by simp [h]) hin
            · exact ih m (by simp [h, hm])

lemma splitNl_single {l : List Char} (h : '\n' ∉ l) : splitNl l = [l] := by
  induction l with
  | nil => rfl
  | cons c rest ih =>
      rw [splitNl, if_neg (by intro hc; exact h (by simp [hc]))]
      rw [ih (fun hin => h (by simp [hin]))]

lemma splitNl_joinNlL : ∀ ls : List (List Char), (∀ l ∈ ls, '\n' ∉ l) → ls ≠ [] →
    splitNl (joinNlL ls) = ls := by
  intro ls
  induction ls with
  | nil => intro _ h2; exact absurd rfl h2
  | cons l ls ih =>
      intro h1 _
      cases ls with
      | nil => exact splitNl_single (h1 l (by simp))
      | cons l2 ls2 =>
          have hstep : ∀ l0 : List Char, '\n' ∉ l0 →
              splitNl (l0 ++ '\n' :: joinNlL (l2 :: ls2))
                = l0 :: splitNl (joinNlL (l2 :: ls2)) := by
            intro l0
            induction l0 with
            | nil => intro _; simp [splitNl]
            | cons c l0' ih0 =>
                intro hno
                rw [List.cons_append, splitNl,
                  if_neg (by intro hc; exact hno (by simp [hc]))]
                rw [ih0 (fun hin => hno (by simp [hin]))]
          show splitNl (l ++ '\n' :: joinNlL (l2 :: ls2)) = l :: l2 :: ls2
          rw [hstep l (h1 l (by simp))]
          rw [ih (fun m hm => h1 m (by simp [hm])) (by simp)]

lemma cleanLine_none_of (l : List Char) (h : keepLine l = false) :
    cleanLine l = none := by
  rw [keepLine] at h
  simp only [decide_not, Bool.not_eq_false', decide_eq_true_eq] at h
  rw [cleanLine]
  rcases h with h | h
  · simp [h]
  · by_cases h0 : stripLR l = []
    · simp [h0]
    · simp [h0, h]

lemma filterMap_filter_keep (ls : List (List Char)) :
    (ls.filter keepLine).filterMap cleanLine = ls.filterMap cleanLine := by
  induction ls with
  | nil => rfl
  | cons l ls ih =>
      cases hk : keepLine l with
      | true =>
          rw [List.filter_cons_of_pos (by simp [hk])]
          rw [List.filterMap_cons, List.filterMap_cons]
          cases hc : cleanLine l with
          | none => exact ih
          | some m => rw [ih]
      | false =>
          rw [List.filter_cons_of_neg (by simp [hk])]
          rw [List.filterMap_cons, cleanLine_none_of l hk]
          exact ih

/-- C8 (amended): `clean_ai_response` drops every line that is blank after
stripping or whose stripped text matches a prompt-artifact phrase
case-insensitively (deleting such input lines does not change the
output), and removes every emphasis character from the kept lines (the
output contains no `*`, `_` or `+` at all); but because the per-line
strip happens *before* emphasis removal, a kept line may retain
whitespace uncovered by a deleted emphasis character, and a line
consisting only of emphasis characters becomes an empty output line, so
the output can contain blank lines and lines with leading or trailing
whitespace. -/
theorem c8_clean_amended (s : String) :
    (∀ c ∈ (clean_ai_response s).data, c ≠ '*' ∧ c ≠ '_' ∧ c ≠ '+') ∧
    clean_ai_response s
      = clean_ai_response (String.mk (joinNlL ((splitNl s.data).filter keepLine))) := by
  constructor
  · intro c hc
    rw [clean_ai_response] at hc
    have hc1 : c ∈ joinNlL ((splitNl s.data).filterMap cleanLine) := mem_stripLR hc
    rcases mem_joinNlL hc1 with h | ⟨m, hm, hcm⟩
    · rw [h]
      refine ⟨by decide, by decide, by decide⟩
    · obtain ⟨a, _, ha⟩ := List.mem_filterMap.mp hm
      rw [cleanLine] at ha
      by_cases h0 : stripLR a = []
      · simp [h0] at ha
      · by_cases h1 : phraseHit (stripLR a)
        · simp [h0, h1] at ha
        · simp only [h0, h1, if_false, if_neg, ite_false] at ha
          have hm2 : m = removeEmph (stripLR a) := by
            by_contra hne
            simp [h0, h1] at ha
            exact hne ha.symm
          rw [hm2] at hcm
          exact removeEmph_no_emphasis _ c hcm
  · rw [clean_ai_response, clean_ai_response]
    cases hF : (splitNl s.data).filter keepLine with
    | nil =>
        have hlhs : (splitNl s.data).filterMap cleanLine = [] := by
          rw [← filterMap_filter_keep, hF]
          rfl
        rw [hlhs]
        rfl
    | cons f fs =>
        rw [show (String.mk (joinNlL (f :: fs))).data = joinNlL (f :: fs) from rfl]
        rw [splitNl_joinNlL (f :: fs) ?hnl (by simp)]
        · rw [← hF, filterMap_filter_keep]
        case hnl =>
          intro l hl
          have hl2 : l ∈ splitNl s.data := by
            rw [← hF] at hl
            exact (List.filter_sublist _).subset hl
          exact splitNl_no_nl s.data l hl2

/-- C8 counterexample: on the input `"a\n*\nb"` the line `"*"` survives
the phrase filter, is stripped (no change), and then loses its only
character to emphasis removal, so the output `"a\n\nb"` contains a blank
line; on `"a\n* hi"` the kept line `"* hi"` becomes `" hi"`, which still
has leading whitespace — both contradicting the claim. -/
theorem c8_clean_counterexample :
    clean_ai_response "a\n*\nb" = "a\n\nb" ∧
    splitNl (clean_ai_response "a\n*\nb").data = ["a".data, [], "b".data] ∧
    clean_ai_response "a\n* hi" = "a\n hi" ∧
    stripLR " hi".data ≠ " hi".data := by
  refine ⟨by decide, by decide, by decide, by decide⟩

lemma length_le_flatten {x : List Char} :
    ∀ {l : List (List Char)}, x ∈ l → x.length ≤ l.flatten.length := by
  intro l
  induction l with
  | nil => intro h; simp at h
  | cons a as ih =>
      intro h
      rw [List.mem_cons] at h
      rw [List.flatten_cons, List.length_append]
      rcases h with h | h
      · rw [h]; omega
      · have := ih h; omega

lemma flatten_filter_ne_nil (l : List (List Char)) :
    (l.filter fun x => x ≠ []).flatten = l.flatten := by
  induction l with
  | nil => rfl
  | cons a as ih =>
      by_cases ha : a = []
      · rw [List.filter_cons_of_neg (by simp [ha]), List.flatten_cons, ih, ha,
          List.nil_append]
      · rw [List.filter_cons_of_pos (by simp [ha]), List.flatten_cons,
          List.flatten_cons, ih]

lemma hasPre_append : ∀ (pat l : List Char),
    hasPre pat l = true → pat ++ l.drop pat.length = l := by
  intro pat
  induction pat with
  | nil => intro l _; simp
  | cons a as ih =>
      intro l h
      cases l with
      | nil => simp [hasPre] at h
      | cons b bs =>
          rw [hasPre, Bool.and_eq_true] at h
          have hab : a = b := by simpa using h.1
          rw [List.cons_append, hab, List.length_cons, List.drop_succ_cons, ih bs h.2]

lemma splitPartsGo_ne_nil (pat : List Char) :
    ∀ (l : List Char) (skip : Nat), splitPartsGo pat l skip ≠ [] := by
  intro l
  induction l with
  | nil => intro skip; simp [splitPartsGo]
  | cons c rest ih =>
      intro skip
      cases skip with
      | succ k => rw [splitPartsGo]; exact ih k
      | zero =>
          rw [splitPartsGo]
          split
          · simp
          · split
            · simp
            · simp

lemma splitPartsGo_join (pat : List Char) :
    ∀ (l : List Char) (skip : Nat) (p : List Char) (ps : List (List Char)),
    splitPartsGo pat l skip = p :: ps →
    p ++ (ps.map fun q => pat ++ q).flatten = l.drop skip := by
  intro l
  induction l with
  | nil =>
      intro skip p ps h
      rw [splitPartsGo] at h
      cases h
      simp
  | cons c rest ih =>
      intro skip p ps h
      cases skip with
      | succ k =>
          rw [splitPartsGo] at h
          rw [List.drop_succ_cons]
          exact ih k p ps h
      | zero =>
          rw [splitPartsGo] at h
          rw [List.drop_zero]
          split at h
          · next hcond =>
              cases hs : splitPartsGo pat rest (pat.length - 1) with
              | nil => exact absurd hs (splitPartsGo_ne_nil pat rest _)
              | cons p2 ps2 =>
                  rw [hs] at h
                  cases h
                  have hrec := ih (pat.length - 1) p2 ps2 hs
                  obtain ⟨x, xs, hpat⟩ : ∃ x xs, pat = x :: xs := by
                    cases pat with
                    | nil => exact absurd rfl hcond.1
                    | cons x xs => exact ⟨x, xs, rfl⟩
                  have hdrop : (c :: rest).drop pat.length = rest.drop (pat.length - 1) := by
                    rw [hpat]
                    simp
                  have happ := hasPre_append pat (c :: rest) hcond.2
                  rw [hdrop] at happ
                  rw [List.nil_append, List.map_cons, List.flatten_cons,
                    List.append_assoc, hrec, happ]
          · next hcond =>
              cases hs : splitPartsGo pat rest 0 with
              | nil => exact absurd hs (splitPartsGo_ne_nil pat rest 0)
              | cons q qs =>
                  rw [hs] at h
                  injection h with h1 h2
                  subst h1
                  subst h2
                  rw [List.cons_append, ih 0 q qs hs, List.drop_zero]

lemma splitKeep_flatten (sep text : List Char) :
    (splitKeep sep text).flatten = text := by
  rw [splitKeep]
  by_cases hsep : sep = []
  · rw [if_pos hsep]
    induction text with
    | nil => rfl
    | cons c cs ih => rw [List.map_cons, List.flatten_cons, ih]; rfl
  · rw [if_neg hsep]
    cases hsp : splitParts sep text with
    | nil => exact absurd hsp ((by rw [splitParts] at *; exact splitPartsGo_ne_nil sep text 0))
    | cons p ps =>
        rw [flatten_filter_ne_nil, List.flatten_cons]
        rw [splitParts] at hsp
        have := splitPartsGo_join sep text 0 p ps hsp
        simpa using this

lemma mergeCore_small (cs co : Nat) :
    ∀ (ds cur : List (List Char)) (total : Nat) (docs : List (List Char)),
    total + ((ds.map List.length).sum) ≤ cs →
    mergeCore cs co ds cur total docs = docs ++ (joinDocs (cur ++ ds)).toList := by
  intro ds
  induction ds with
  | nil =>
      intro cur total docs _
      rw [mergeCore, List.append_nil]
  | cons d ds ih =>
      intro cur total docs hle
      rw [List.map_cons, List.sum_cons] at hle
      rw [mergeCore, if_neg (by omega)]
      rw [ih (cur ++ [d]) (total + d.length) docs (by omega)]
      rw [List.append_assoc, List.singleton_append]

lemma mergeSplits_small (cs co : Nat) (splits : List (List Char))
    (h : ((splits.map List.length).sum) ≤ cs) :
    mergeSplits cs co splits = (joinDocs splits).toList := by
  rw [mergeSplits, mergeCore_small cs co splits [] 0 [] (by omega)]
  rw [List.nil_append, List.nil_append]

lemma processSplits_all_good (cs co : Nat)
    (recurse : Option (List Char → List (List Char))) :
    ∀ (splits good : List (List Char)), (∀ x ∈ splits, x.length < cs) →
    processSplits cs co recurse splits good = mergeSplits cs co (good ++ splits) := by
  intro splits
  induction splits with
  | nil =>
      intro good _
      show (if good = [] then [] else mergeSplits cs co good) = _
      rw [List.append_nil]
      by_cases hg : good = []
      · rw [if_pos hg, hg]
        rfl
      · rw [if_neg hg]
  | cons s ss ih =>
      intro good hall
      rw [processSplits.eq_def]
      simp only
      rw [if_pos (hall s (by simp))]
      rw [ih (good ++ [s]) (fun x hx => hall x (by simp [hx]))]
      rw [List.append_assoc, List.singleton_append]

/-- A text that is nonempty, shorter than the chunk size and already
stripped comes back from `_split_text` as a single chunk equal to the
whole text, whatever separator list is in play. -/
lemma splitTextAux_small (cs co : Nat) :
    ∀ (seps : List (List Char)) (t : List Char),
    t ≠ [] → t.length < cs → stripLR t = t →
    splitTextAux cs co seps t = [t] := by
  intro seps
  induction seps with
  | nil => intro t _ _ _; rfl
  | cons s rest ih =>
      intro t ht hlen hstrip
      rw [splitTextAux]
      by_cases hskip : s ≠ [] ∧ rest ≠ [] ∧ ¬ hasSub s t
      · rw [if_pos hskip]
        exact ih t ht hlen hstrip
      · rw [if_neg hskip]
        have hflat := splitKeep_flatten s t
        have hall : ∀ x ∈ splitKeep s t, x.length < cs := by
          intro x hx
          have h1 := length_le_flatten hx
          rw [hflat] at h1
          omega
        have hsum : ((splitKeep s t).map List.length).sum ≤ cs := by
          have h2 := congrArg List.length hflat
          rw [List.length_flatten] at h2
          omega
        have hm : mergeSplits cs co (splitKeep s t) = [t] := by
          rw [mergeSplits_small cs co _ hsum, joinDocs]
          rw [hflat]
          simp only [hstrip]
          rw [if_neg ht]
          rfl
        by_cases hif : s = [] ∨ rest = []
        · rw [if_pos hif, processSplits_all_good cs co none _ [] hall,
            List.nil_append, hm]
        · rw [if_neg hif,
            processSplits_all_good cs co _ _ [] hall, List.nil_append, hm]

/-- C3 counterexample: the document `"hello\n"` is chunked into the single
chunk `"hello"` — the splitter strips whitespace at chunk boundaries — so
concatenating the chunks with the overlap trimmed yields `"hello"`, not
the original text. -/
theorem c3_chunk_counterexample :
    (chunk_documents [⟨"hello\n", []⟩]).map LCDocument.page_content = ["hello"] ∧
    specReconstruct CHUNK_OVERLAP
        ((chunk_documents [⟨"hello\n", []⟩]).map LCDocument.page_content)
      = "hello" ∧
    ("hello" : String) ≠ "hello\n" := by
  refine ⟨by decide, by decide, by decide⟩

/-- C3 (amended): the chunker emits chunks in left-to-right document
order, but chunk texts are whitespace-stripped, so exact reconstruction
holds only for documents that fit in one chunk and carry no surrounding
whitespace: for every metadata map and every nonempty text shorter than
the 1000-character chunk size that equals its own strip, `chunk_documents`
returns exactly one chunk equal to the whole document (metadata
propagated verbatim), and the spec's overlap-trimmed concatenation
reproduces the text exactly. -/
theorem c3_chunk_amended (meta : List (String × String)) (t : String)
    (h1 : t.data ≠ []) (h2 : t.data.length < 1000) (h3 : pyStrip t = t) :
    chunk_documents [⟨t, meta⟩] = [⟨t, meta⟩] ∧
    specReconstruct CHUNK_OVERLAP
        ((chunk_documents [⟨t, meta⟩]).map LCDocument.page_content) = t := by
  have hstrip : stripLR t.data = t.data := by
    have h4 := congrArg String.data h3
    rw [pyStrip] at h4
    exact h4
  have hone : splitTextAux CHUNK_SIZE CHUNK_OVERLAP SEPS t.data = [t.data] :=
    splitTextAux_small CHUNK_SIZE CHUNK_OVERLAP SEPS t.data h1 h2 hstrip
  have hmk : String.mk t.data = t := rfl
  have hct : chunk_documents [⟨t, meta⟩] = [⟨t, meta⟩] := by
    rw [chunk_documents]
    simp only [List.flatMap_cons, List.flatMap_nil, List.append_nil]
    rw [splitText, hone, List.map_singleton, List.map_singleton, hmk]
  refine ⟨hct, ?_⟩
  rw [hct]
  show t ++ "" = t
  exact String.append_empty t

/-- C3 witness: a short product-description document chunks to itself. -/
theorem c3_chunk_amended_witness :
    chunk_documents [⟨"Everyday Account", [("source", "x")]⟩]
        = [⟨"Everyday Account", [("source", "x")]⟩] ∧
    specReconstruct CHUNK_OVERLAP
        ((chunk_documents [⟨"Everyday Account", [("source", "x")]⟩]).map
          LCDocument.page_content)
      = "Everyday Account" :=
  c3_chunk_amended [("source", "x")] "Everyday Account"
    (by decide) (by decide) (by decide)

end Cba
